import Mathlib

/-!
Shallow embedding of the path rendering and requirements-traceability engine
(`src/autospec/merge_requirements.py` and `src/autospec/path_cleanup.py`).

JSON-shaped Python values are modelled by `JValue`; Python dicts are
association lists in insertion order (lookup finds the first binding,
update replaces the first binding in place, new keys are appended — the
observable behaviour of an insertion-ordered Python dict).  Code paths that
can raise a Python exception are modelled in `Except PyErr`.
-/

/-- A JSON-shaped Python value. Numbers are integers (the inputs of this
program carry no fractional numerics that any operation inspects). -/
inductive JValue where
  | null : JValue
  | bool : Bool → JValue
  | num : Int → JValue
  | str : String → JValue
  | arr : List JValue → JValue
  | obj : List (String × JValue) → JValue

mutual

def decEqJ : (a b : JValue) → Decidable (a = b)
  | .null, .null => .isTrue rfl
  | .bool a, .bool b =>
    match Bool.decEq a b with
    | .isTrue h => .isTrue (by rw [h])
    | .isFalse h => .isFalse (fun hh => by cases hh; exact h rfl)
  | .num a, .num b =>
    match Int.decEq a b with
    | .isTrue h => .isTrue (by rw [h])
    | .isFalse h => .isFalse (fun hh => by cases hh; exact h rfl)
  | .str a, .str b =>
    match String.decEq a b with
    | .isTrue h => .isTrue (by rw [h])
    | .isFalse h => .isFalse (fun hh => by cases hh; exact h rfl)
  | .arr xs, .arr ys =>
    match decEqJL xs ys with
    | .isTrue h => .isTrue (by rw [h])
    | .isFalse h => .isFalse (fun hh => by cases hh; exact h rfl)
  | .obj fs, .obj gs =>
    match decEqJF fs gs with
    | .isTrue h => .isTrue (by rw [h])
    | .isFalse h => .isFalse (fun hh => by cases hh; exact h rfl)
  | .null, .bool _ => .isFalse (fun h => by cases h)
  | .null, .num _ => .isFalse (fun h => by cases h)
  | .null, .str _ => .isFalse (fun h => by cases h)
  | .null, .arr _ => .isFalse (fun h => by cases h)
  | .null, .obj _ => .isFalse (fun h => by cases h)
  | .bool _, .null => .isFalse (fun h => by cases h)
  | .bool _, .num _ => .isFalse (fun h => by cases h)
  | .bool _, .str _ => .isFalse (fun h => by cases h)
  | .bool _, .arr _ => .isFalse (fun h => by cases h)
  | .bool _, .obj _ => .isFalse (fun h => by cases h)
  | .num _, .null => .isFalse (fun h => by cases h)
  | .num _, .bool _ => .isFalse (fun h => by cases h)
  | .num _, .str _ => .isFalse (fun h => by cases h)
  | .num _, .arr _ => .isFalse (fun h => by cases h)
  | .num _, .obj _ => .isFalse (fun h => by cases h)
  | .str _, .null => .isFalse (fun h => by cases h)
  | .str _, .bool _ => .isFalse (fun h => by cases h)
  | .str _, .num _ => .isFalse (fun h => by cases h)
  | .str _, .arr _ => .isFalse (fun h => by cases h)
  | .str _, .obj _ => .isFalse (fun h => by cases h)
  | .arr _, .null => .isFalse (fun h => by cases h)
  | .arr _, .bool _ => .isFalse (fun h => by cases h)
  | .arr _, .num _ => .isFalse (fun h => by cases h)
  | .arr _, .str _ => .isFalse (fun h => by cases h)
  | .arr _, .obj _ => .isFalse (fun h => by cases h)
  | .obj _, .null => .isFalse (fun h => by cases h)
  | .obj _, .bool _ => .isFalse (fun h => by cases h)
  | .obj _, .num _ => .isFalse (fun h => by cases h)
  | .obj _, .str _ => .isFalse (fun h => by cases h)
  | .obj _, .arr _ => .isFalse (fun h => by cases h)

def decEqJL : (a b : List JValue) → Decidable (a = b)
  | [], [] => .isTrue rfl
  | [], _ :: _ => .isFalse (fun h => by cases h)
  | _ :: _, [] => .isFalse (fun h => by cases h)
  | x :: xs, y :: ys =>
    match decEqJ x y, decEqJL xs ys with
    | .isTrue h1, .isTrue h2 => .isTrue (by rw [h1, h2])
    | .isFalse h1, _ => .isFalse (fun h => by cases h; exact h1 rfl)
    | _, .isFalse h2 => .isFalse (fun h => by cases h; exact h2 rfl)

def decEqJF : (a b : List (String × JValue)) → Decidable (a = b)
  | [], [] => .isTrue rfl
  | [], _ :: _ => .isFalse (fun h => by cases h)
  | _ :: _, [] => .isFalse (fun h => by cases h)
  | (k, v) :: fs, (l, w) :: gs =>
    match String.decEq k l, decEqJ v w, decEqJF fs gs with
    | .isTrue h1, .isTrue h2, .isTrue h3 => .isTrue (by rw [h1, h2, h3])
    | .isFalse h1, _, _ => .isFalse (fun h => by cases h; exact h1 rfl)
    | _, .isFalse h2, _ => .isFalse (fun h => by cases h; exact h2 rfl)
    | _, _, .isFalse h3 => .isFalse (fun h => by cases h; exact h3 rfl)

end

instance : DecidableEq JValue := decEqJ

/-- A Python dict with string keys, as used for steps / models / cases. -/
abbrev JObj := List (String × JValue)

/-- The Python exceptions the embedded code can raise. -/
inductive PyErr where
  | typeError : PyErr
  | attributeError : PyErr
  | keyError : PyErr
deriving DecidableEq

/-- `d.get(k)` without default: first binding wins, `none` when absent. -/
def aGet (fs : JObj) (k : String) : Option JValue :=
  match fs with
  | [] => none
  | (k', v) :: rest => if k' = k then some v else aGet rest k

/-- `d[k] = v` on an insertion-ordered dict: replace the first binding of
`k` keeping its position, else append a new binding. -/
def aSet (fs : JObj) (k : String) (v : JValue) : JObj :=
  match fs with
  | [] => [(k, v)]
  | (k', w) :: rest => if k' = k then (k, v) :: rest else (k', w) :: aSet rest k v

/-- Python truthiness on JSON-shaped values. -/
def jFalsy : JValue → Bool
  | .null => true
  | .bool b => !b
  | .num n => n == 0
  | .str s => s == ""
  | .arr xs => xs.isEmpty
  | .obj fs => fs.isEmpty

/-- `a or b` in Python: `b` when `a` is falsy, else `a`. -/
def pyOr (a b : JValue) : JValue := if jFalsy a then b else a

/-- Iterating a Python value: a list yields its items, a string yields its
characters as one-character strings, a dict yields its keys; any other
value raises `TypeError`. -/
def pyIter : JValue → Except PyErr (List JValue)
  | .arr xs => .ok xs
  | .str s => .ok (s.toList.map (fun c => .str (String.mk [c])))
  | .obj fs => .ok (fs.map (fun p => .str p.1))
  | _ => .error .typeError

def isArr : JValue → Bool
  | .arr _ => true
  | _ => false

def isObj : JValue → Bool
  | .obj _ => true
  | _ => false

/-- Python whitespace for `str.strip` (space, tab, newline, return,
vertical tab, form feed). -/
def pyIsSpace (c : Char) : Bool :=
  c = ' ' || c = '\t' || c = '\n' || c = '\r' || c = Char.ofNat 11 || c = Char.ofNat 12

/-- `s.strip()`: drop leading and trailing whitespace. -/
def pyStrip (s : String) : String :=
  String.mk (((s.toList.dropWhile pyIsSpace).reverse.dropWhile pyIsSpace).reverse)

/-- `s.rstrip(";")`: drop every trailing semicolon. -/
def pyRstripSemi (s : String) : String :=
  String.mk ((s.toList.reverse.dropWhile (fun c => c = ';')).reverse)

/-- `s.lower()` (ASCII, as the names this program handles are ASCII). -/
def pyLower (s : String) : String := String.mk (s.toList.map Char.toLower)

/-- `s.capitalize()`: first character upper-cased, the rest lower-cased. -/
def pyCapitalize (s : String) : String :=
  match s.toList with
  | [] => ""
  | c :: cs => String.mk (c.toUpper :: cs.map Char.toLower)

/-- `", ".join parts`-style joining. -/
def joinSep (sep : String) : List String → String
  | [] => ""
  | [x] => x
  | x :: xs => x ++ sep ++ joinSep sep xs

/-- `s.startswith(pre)`. -/
def pyStartsWith (s pre : String) : Bool := pre.toList.isPrefixOf s.toList

/-- Whether `pat` occurs as a contiguous run inside the character list. -/
def listHasInfix (pat : List Char) : List Char → Bool
  | [] => pat.isEmpty
  | c :: rest => pat.isPrefixOf (c :: rest) || listHasInfix pat rest

/-- `pat in s` (substring containment). -/
def strContains (s pat : String) : Bool := listHasInfix pat.toList s.toList

/-- `s.split(sep)` for a one-character separator, Python semantics: empty
pieces are kept and the empty string splits to `[""]`. -/
def splitOnCharAux (sep : Char) : List Char → List Char → List (List Char)
  | [], cur => [cur.reverse]
  | c :: cs, cur =>
    if c = sep then cur.reverse :: splitOnCharAux sep cs []
    else splitOnCharAux sep cs (c :: cur)

def pySplitChar (sep : Char) (s : String) : List String :=
  (splitOnCharAux sep s.toList []).map String.mk

mutual
/-- `repr(v)` for the values this program can stringify (quote escaping
inside strings is not modelled; no claim depends on it). -/
def pyRepr : JValue → String
  | .null => "None"
  | .bool b => if b then "True" else "False"
  | .num n => toString n
  | .str s => "'" ++ s ++ "'"
  | .arr xs => "[" ++ pyReprList xs ++ "]"
  | .obj fs => "\x7b" ++ pyReprFields fs ++ "\x7d"

def pyReprList : List JValue → String
  | [] => ""
  | [x] => pyRepr x
  | x :: xs => pyRepr x ++ ", " ++ pyReprList xs

def pyReprFields : List (String × JValue) → String
  | [] => ""
  | [(k, v)] => "'" ++ k ++ "': " ++ pyRepr v
  | (k, v) :: fs => "'" ++ k ++ "': " ++ pyRepr v ++ ", " ++ pyReprFields fs
end

/-- `str(v)`: the string itself for strings, `repr` otherwise. -/
def pyStr : JValue → String
  | .str s => s
  | v => pyRepr v

/-!
## `src/autospec/merge_requirements.py`
-/

/-- The requirements index: an insertion-ordered dict keyed by the Python
tuple `(modelName, elementId)` mapping to a requirements list. -/
abbrev ReqMap := List ((JValue × JValue) × List JValue)

/-- First-binding lookup in a `ReqMap` (Python `dict` lookup). -/
def mapLookup (m : ReqMap) (k : JValue × JValue) : Option (List JValue) :=
  match m with
  | [] => none
  | (k', v) :: rest => if k' = k then some v else mapLookup rest k

/-- `m[k] = v` on a `ReqMap`: replace the first binding in place, else
append. -/
def mapInsert (m : ReqMap) (k : JValue × JValue) (v : List JValue) : ReqMap :=
  match m with
  | [] => [(k, v)]
  | (k', w) :: rest => if k' = k then (k, v) :: rest else (k', w) :: mapInsert rest k v

/-- `_extract_models_list`: a dict yields `d.get("models", [])`; a list
yields the `"models"` value of its first dict item holding that key;
anything else yields `[]`. -/
def extractFromItems : List JValue → JValue
  | [] => .arr []
  | .obj fs :: rest =>
    match aGet fs "models" with
    | some v => v
    | none => extractFromItems rest
  | _ :: rest => extractFromItems rest

def _extract_models_list (models_data : JValue) : JValue :=
  match models_data with
  | .obj fs => (aGet fs "models").getD (.arr [])
  | .arr items => extractFromItems items
  | _ => .arr []

/-- One edge/vertex inside `build_requirements_map`'s loops: `.get` on a
non-dict raises `AttributeError`; a falsy `id` skips the element; only a
list-valued `requirements` contributes an entry (`list(reqs)` copies it,
which the functional embedding renders as storing the same contents). -/
def procElement (model_name : JValue) (m : ReqMap) (elem : JValue) : Except PyErr ReqMap :=
  match elem with
  | .obj fs =>
    let element_id := (aGet fs "id").getD .null
    if jFalsy element_id then .ok m
    else
      match (aGet fs "requirements").getD .null with
      | .arr reqs => .ok (mapInsert m (model_name, element_id) reqs)
      | _ => .ok m
  | _ => .error .attributeError

def procElements (model_name : JValue) : ReqMap → List JValue → Except PyErr ReqMap
  | m, [] => .ok m
  | m, e :: es =>
    match procElement model_name m e with
    | .error err => .error err
    | .ok m' => procElements model_name m' es

/-- One model inside `build_requirements_map`: skip when `name` is falsy,
then walk `edges` and afterwards `vertices`. -/
def procModel (m : ReqMap) (model : JValue) : Except PyErr ReqMap :=
  match model with
  | .obj fs =>
    let model_name := (aGet fs "name").getD .null
    if jFalsy model_name then .ok m
    else
      match pyIter ((aGet fs "edges").getD (.arr [])) with
      | .error e => .error e
      | .ok edges =>
        match procElements model_name m edges with
        | .error e => .error e
        | .ok m1 =>
          match pyIter ((aGet fs "vertices").getD (.arr [])) with
          | .error e => .error e
          | .ok vertices => procElements model_name m1 vertices
  | _ => .error .attributeError

def procModels : ReqMap → List JValue → Except PyErr ReqMap
  | m, [] => .ok m
  | m, model :: rest =>
    match procModel m model with
    | .error e => .error e
    | .ok m' => procModels m' rest

/-- `build_requirements_map`. -/
def build_requirements_map (models_data : JValue) : Except PyErr ReqMap :=
  match pyIter (_extract_models_list models_data) with
  | .error e => .error e
  | .ok models_list => procModels [] models_list

/-- `_annotate_step`: `step.get("id")`/`step.get("modelName")` conflate an
absent key and a stored `None`; when either is `None` the step gets
`requirements = []` with no lookup, else the index's list (copied by
`list(...)`) or `[]`. -/
def _annotate_step (step : JObj) (req_map : ReqMap) : JObj :=
  let step_id := (aGet step "id").getD .null
  let model_name := (aGet step "modelName").getD .null
  if step_id = .null ∨ model_name = .null then
    aSet step "requirements" (.arr [])
  else
    let requirements := (mapLookup req_map (model_name, step_id)).getD []
    aSet step "requirements" (.arr requirements)

/-- `if isinstance(step, dict): _annotate_step(step, req_map)` on one
element of a path. -/
def annotIfDict (req_map : ReqMap) (v : JValue) : JValue :=
  match v with
  | .obj fs => .obj (_annotate_step fs req_map)
  | v => v

/-- `for step in path: if isinstance(step, dict): _annotate_step(...)` on
one entry of a multiple-paths container.  Iterating a list mutates its
dict items in place; iterating a string or a dict yields strings
(characters or keys), which the `isinstance` guard skips, leaving the
container unchanged; any other value is not iterable and raises
`TypeError`. -/
def annotPath (req_map : ReqMap) : JValue → Except PyErr JValue
  | .arr steps => .ok (.arr (steps.map (annotIfDict req_map)))
  | .str s => .ok (.str s)
  | .obj fs => .ok (.obj fs)
  | _ => .error .typeError

def annotPaths (req_map : ReqMap) : List JValue → Except PyErr (List JValue)
  | [] => .ok []
  | p :: ps =>
    match annotPath req_map p with
    | .error e => .error e
    | .ok p' =>
      match annotPaths req_map ps with
      | .error e => .error e
      | .ok ps' => .ok (p' :: ps')

/-- `steps_list and isinstance(steps_list[0], list)`: non-empty and the
first element is a list. -/
def firstIsArr : List JValue → Bool
  | .arr _ :: _ => true
  | _ => false

/-- The body shared by the two container branches of `annotate_steps`:
multiple paths when the first element is a list, else a single path. -/
def annotContainer (req_map : ReqMap) (steps_list : List JValue) : Except PyErr (List JValue) :=
  if firstIsArr steps_list then annotPaths req_map steps_list
  else .ok (steps_list.map (annotIfDict req_map))

/-- `annotate_steps`: dict wrapper holding `steps`, bare list, or identity
fallback on any other shape (a dict whose `steps` value is not a list is
returned unchanged as well). -/
def annotate_steps (steps_data : JValue) (req_map : ReqMap) : Except PyErr JValue :=
  match steps_data with
  | .obj fs =>
    match aGet fs "steps" with
    | some (.arr steps_list) =>
      match annotContainer req_map steps_list with
      | .error e => .error e
      | .ok steps' => .ok (.obj (aSet fs "steps" (.arr steps')))
    | some _ => .ok (.obj fs)
    | none => .ok (.obj fs)
  | .arr steps_list =>
    match annotContainer req_map steps_list with
    | .error e => .error e
    | .ok steps' => .ok (.arr steps')
  | v => .ok v

/-!
## `src/autospec/path_cleanup.py`
-/

/-- `_is_edge`: `step.get("name", "").startswith("e_")`.  The default `""`
applies only when the key is absent; a present non-string value (including
a stored `None`) makes `.startswith` raise `AttributeError`. -/
def _is_edge (step : JObj) : Except PyErr Bool :=
  match (aGet step "name").getD (.str "") with
  | .str s => .ok (pyStartsWith s "e_")
  | _ => .error .attributeError

/-- `_is_vertex`: `step.get("name", "").startswith("v_")`. -/
def _is_vertex (step : JObj) : Except PyErr Bool :=
  match (aGet step "name").getD (.str "") with
  | .str s => .ok (pyStartsWith s "v_")
  | _ => .error .attributeError

/-- The shared scan of `_find_prev_vertex` / `_find_next_vertex`: the first
vertex in the given scan order, raising as soon as a classification
raises. -/
def findVertexIn : List JObj → Except PyErr (Option JObj)
  | [] => .ok none
  | s :: rest =>
    match _is_vertex s with
    | .error e => .error e
    | .ok true => .ok (some s)
    | .ok false => findVertexIn rest

/-- `_find_prev_vertex(path, idx)` scans `idx-1, idx-2, …, 0`; it is given
the prefix `path[:idx]` reversed, so that scan is list order here. -/
def _find_prev_vertex (revBefore : List JObj) : Except PyErr (Option JObj) :=
  findVertexIn revBefore

/-- `_find_next_vertex(path, idx)` scans `idx+1, …, len-1`; it is given the
suffix `path[idx+1:]`. -/
def _find_next_vertex (after : List JObj) : Except PyErr (Option JObj) :=
  findVertexIn after

/-- The deduplication key of one case: `(str(case.get("name", "")),
tuple of str over case.get("steps", []))`, a non-list `steps` value being
wrapped as a one-element list first. -/
def caseKey (case : JObj) : String × List String :=
  let name := pyStr ((aGet case "name").getD (.str ""))
  let steps :=
    match (aGet case "steps").getD (.arr []) with
    | .arr xs => xs.map pyStr
    | v => [pyStr v]
  (name, steps)

/-- The loop of `dedupe_cases` with its `seen` set (membership is all the
code uses, so a list of keys models the Python set). -/
def dedupeGo : List JObj → List (String × List String) → List JObj
  | [], _ => []
  | case :: rest, seen =>
    let key := caseKey case
    if key ∈ seen then dedupeGo rest seen
    else case :: dedupeGo rest (key :: seen)

/-- `dedupe_cases`. -/
def dedupe_cases (cases : List JObj) : List JObj := dedupeGo cases []

/-- One raw `requirements` entry inside `_normalise_requirements`: `None`
is dropped, a string is split on commas with blank pieces discarded, any
other value is stringified and stripped. -/
def normReqEntry : JValue → List String
  | .null => []
  | .str r => (pySplitChar ',' r).filterMap fun p =>
      let t := pyStrip p
      if t = "" then none else some t
  | v => [pyStrip (pyStr v)]

/-- The collection phase of `_normalise_requirements`: falsy sources
(`None` or an empty dict) are skipped; `src.get("requirements") or []` is
wrapped into a one-element list when it is not a list. -/
def collectRaw : List (Option JObj) → List String
  | [] => []
  | none :: rest => collectRaw rest
  | some src :: rest =>
    if src = [] then collectRaw rest
    else
      let reqsV := pyOr ((aGet src "requirements").getD .null) (.arr [])
      let reqs : List JValue := match reqsV with | .arr xs => xs | v => [v]
      reqs.flatMap normReqEntry ++ collectRaw rest

/-- The ordered deduplication phase of `_normalise_requirements`
(`if r and r not in seen`). -/
def dedupStrs : List String → List String → List String
  | [], _ => []
  | r :: rest, seen =>
    if r ≠ "" ∧ r ∉ seen then r :: dedupStrs rest (r :: seen)
    else dedupStrs rest seen

/-- `_normalise_requirements(*sources)`. -/
def _normalise_requirements (sources : List (Option JObj)) : List String :=
  dedupStrs (collectRaw sources) []

/-- `_summarise_actions`: `step.get("actions") or []` is iterated; each
string item is stripped of whitespace and of every trailing semicolon, and
dropped when empty or containing `JsonContext`; non-strings are skipped;
the survivors join with `", "`, defaulting to `"None"`. -/
def _summarise_actions (step : JObj) : Except PyErr String :=
  let actions := pyOr ((aGet step "actions").getD .null) (.arr [])
  match pyIter actions with
  | .error e => .error e
  | .ok items =>
    let parts := items.filterMap fun act =>
      match act with
      | .str s =>
        let cleaned := pyRstripSemi (pyStrip s)
        if cleaned = "" then none
        else if strContains cleaned "JsonContext" then none
        else some cleaned
      | _ => none
    .ok (if parts = [] then "None" else joinSep ", " parts)

/-- The camel-case splitter `re.split(r"(?<!^)(?=[A-Z])", seg)`: start a
new piece before each upper-case letter except at position 0. -/
def camelSplitAux : List Char → List Char → List String
  | [], cur => [String.mk cur.reverse]
  | c :: cs, cur =>
    if c.isUpper ∧ cur ≠ [] then String.mk cur.reverse :: camelSplitAux cs [c]
    else camelSplitAux cs (c :: cur)

def camelSplit (s : String) : List String := camelSplitAux s.toList []

/-- `_format_vertex_description`. -/
def _format_vertex_description (raw_name : String) : String :=
  let name :=
    if pyStartsWith raw_name "v_" then String.mk (raw_name.toList.drop 2)
    else if pyStartsWith raw_name "v" ∧ raw_name.toList.length > 1 ∧ (raw_name.toList.getD 1 ' ').isUpper then
      String.mk (raw_name.toList.drop 1)
    else raw_name
  let segments := (pySplitChar '_' name).filter (· ≠ "")
  let words := segments.flatMap fun seg =>
    (camelSplit seg).filterMap fun p =>
      let p := pyStrip p
      if p = "" then none else some (pyCapitalize p)
  if words = [] then raw_name else joinSep " " words

/-- `_format_edge_description`. -/
def _format_edge_description (raw_name : String) : String :=
  let name := if pyStartsWith raw_name "e_" then String.mk (raw_name.toList.drop 2) else raw_name
  let parts := (pySplitChar '_' name).filter (· ≠ "")
  match parts with
  | [] => raw_name
  | first :: rest => joinSep " " (pyCapitalize first :: rest.map pyLower)

/-- `step["name"]` followed by use as a string (`startswith` inside the
formatters would raise on a non-string). -/
def subscrName (step : JObj) : Except PyErr String :=
  match aGet step "name" with
  | none => .error .keyError
  | some (.str s) => .ok s
  | some _ => .error .attributeError

/-- `next((s for s in path if _is_vertex(s)), None)`: the generator
evaluates `_is_vertex` left to right until the first hit. -/
def findFirstVertex : List JObj → Except PyErr (Option JObj)
  | [] => .ok none
  | s :: rest =>
    match _is_vertex s with
    | .error e => .error e
    | .ok true => .ok (some s)
    | .ok false => findFirstVertex rest

/-- The body of the edge loop of `build_step_strings_for_path` for the edge
between `revBefore.reverse` and `after`, with step number `n`: resolve the
target vertex (`next_vertex or prev_vertex`, Python `or` falling through
on a falsy — empty — dict), render names, actions and requirements into
one line. -/
def renderEdgeLine (revBefore : List JObj) (step : JObj) (after : List JObj) (n : Nat) :
    Except PyErr String :=
  match _find_prev_vertex revBefore with
  | .error e => .error e
  | .ok prev_vertex =>
    match _find_next_vertex after with
    | .error e => .error e
    | .ok next_vertex =>
      let target_vertex :=
        match next_vertex with
        | some fs => if fs = [] then prev_vertex else some fs
        | none => prev_vertex
      let targetRes : Except PyErr String :=
        match target_vertex with
        | some fs =>
          if fs = [] then .ok "<no vertex>"
          else
            match subscrName fs with
            | .error e => .error e
            | .ok raw => .ok (_format_vertex_description raw)
        | none => .ok "<no vertex>"
      match targetRes with
      | .error e => .error e
      | .ok target_name =>
        match _summarise_actions step with
        | .error e => .error e
        | .ok changed =>
          let reqs := _normalise_requirements [some step, target_vertex]
          let req_part :=
            if reqs ≠ [] then " -> meets requirements: " ++ joinSep ", " reqs
            else ""
          match subscrName step with
          | .error e => .error e
          | .ok rawEdge =>
            let human_edge := _format_edge_description rawEdge
            .ok ("Step [" ++ toString n ++ "] " ++ human_edge ++
                 " -> results in " ++ target_name ++ " with data" ++
                 " -> changed: " ++ changed ++ req_part)

/-- The `for idx, step in enumerate(path)` loop of
`build_step_strings_for_path`, walking the remaining suffix while carrying
the already-visited prefix reversed (for the backward vertex scan) and the
step counter `n`; returns the emitted edge lines and the final counter. -/
def edgeLinesGo (revBefore : List JObj) : List JObj → Nat → Except PyErr (List String × Nat)
  | [], n => .ok ([], n)
  | step :: rest, n =>
    match _is_edge step with
    | .error e => .error e
    | .ok false => edgeLinesGo (step :: revBefore) rest n
    | .ok true =>
      match renderEdgeLine revBefore step rest (n + 1) with
      | .error e => .error e
      | .ok line =>
        match edgeLinesGo (step :: revBefore) rest (n + 1) with
        | .error e => .error e
        | .ok (ls, m) => .ok (line :: ls, m)

/-- `build_step_strings_for_path`. -/
def build_step_strings_for_path (path : List JObj) : Except PyErr (List String) :=
  match findFirstVertex path with
  | .error e => .error e
  | .ok first_vertex =>
    let startLines := if first_vertex.isSome then ["Step [1] START TEST"] else []
    let n0 := if first_vertex.isSome then 1 else 0
    match edgeLinesGo [] path n0 with
    | .error e => .error e
    | .ok (ls, m) =>
      .ok (startLines ++ ls ++ ["Step [" ++ toString (m + 1) ++ "] END TEST"])

/-- The `is_start` predicate of `split_path`: a truthy `start_id` switches
matching to `step.get("id") == start_id`, else `step.get("name") ==
start_name` (`None` never equals a string, so absent keys simply do not
match). -/
def isStartStep (start_name : String) (start_id : Option String) (step : JObj) : Bool :=
  match start_id with
  | some sid =>
    if sid ≠ "" then (aGet step "id").getD .null = .str sid
    else (aGet step "name").getD .null = .str start_name
  | none => (aGet step "name").getD .null = .str start_name

/-- The accumulation loop of `split_path`. -/
def splitGo (start_name : String) (start_id : Option String) :
    List JObj → List (List JObj) → List JObj → List (List JObj)
  | [], paths, current => if current ≠ [] then paths ++ [current] else paths
  | step :: rest, paths, current =>
    if isStartStep start_name start_id step ∧ current ≠ [] then
      splitGo start_name start_id rest (paths ++ [current]) [step]
    else
      splitGo start_name start_id rest paths (current ++ [step])

/-- `split_path`. -/
def split_path (steps : List JObj) (start_name : String) (start_id : Option String) :
    List (List JObj) :=
  if steps = [] then [] else splitGo start_name start_id steps [] []

/-!
## Specification-side definitions

These follow the wording of the spec / claims (not the code) and exist to
be compared with the code-derived definitions above.
-/

/-- Trim exactly one trailing semicolon — the procedure claim C5 states
word for word ("trimming whitespace and exactly one trailing semicolon"). -/
def stripOneSemi (s : String) : String :=
  match s.toList.reverse with
  | ';' :: rest => String.mk rest.reverse
  | _ => s

/-- The changed clause exactly as claim C5 states it: drop non-string
entries, trim whitespace and exactly one trailing semicolon, drop empty
results, drop strings containing `JsonContext`, join with `", "`, default
`"None"`. -/
def summariseActionsClaimed (actions : List JValue) : String :=
  let strs := actions.filterMap fun v => match v with | .str s => some s | _ => none
  let trimmed := strs.map fun s => stripOneSemi (pyStrip s)
  let nonempty := trimmed.filter (· ≠ "")
  let kept := nonempty.filter fun s => !strContains s "JsonContext"
  if kept = [] then "None" else joinSep ", " kept

/-- The changed clause as amended: identical to claim C5 except that every
trailing semicolon is trimmed, not exactly one. -/
def summariseActionsAmended (actions : List JValue) : String :=
  let strs := actions.filterMap fun v => match v with | .str s => some s | _ => none
  let trimmed := strs.map fun s => pyRstripSemi (pyStrip s)
  let nonempty := trimmed.filter (· ≠ "")
  let kept := nonempty.filter fun s => !strContains s "JsonContext"
  if kept = [] then "None" else joinSep ", " kept

/-- The encounter-ordered sequence of index insertions described by claim
C6: models in order, edges before vertices within a model, skipping models
with falsy names and elements with falsy ids, one entry per element whose
`requirements` value is a list.  Shapes the code would raise on raise here
too, so that this traversal describes exactly the runs the code
completes. -/
def c6ElementEntry (model_name : JValue) (elem : JValue) :
    Except PyErr (List ((JValue × JValue) × List JValue)) :=
  match elem with
  | .obj fs =>
    let element_id := (aGet fs "id").getD .null
    if jFalsy element_id then .ok []
    else
      match (aGet fs "requirements").getD .null with
      | .arr reqs => .ok [((model_name, element_id), reqs)]
      | _ => .ok []
  | _ => .error .attributeError

def c6ElementsEntries (model_name : JValue) :
    List JValue → Except PyErr (List ((JValue × JValue) × List JValue))
  | [] => .ok []
  | e :: es =>
    match c6ElementEntry model_name e with
    | .error err => .error err
    | .ok entry =>
      match c6ElementsEntries model_name es with
      | .error err => .error err
      | .ok rest => .ok (entry ++ rest)

def c6ModelEntries (model : JValue) :
    Except PyErr (List ((JValue × JValue) × List JValue)) :=
  match model with
  | .obj fs =>
    let model_name := (aGet fs "name").getD .null
    if jFalsy model_name then .ok []
    else
      match pyIter ((aGet fs "edges").getD (.arr [])) with
      | .error e => .error e
      | .ok edges =>
        match c6ElementsEntries model_name edges with
        | .error e => .error e
        | .ok edgeEntries =>
          match pyIter ((aGet fs "vertices").getD (.arr [])) with
          | .error e => .error e
          | .ok vertices =>
            match c6ElementsEntries model_name vertices with
            | .error e => .error e
            | .ok vertexEntries => .ok (edgeEntries ++ vertexEntries)
  | _ => .error .attributeError

def c6ModelsEntries : List JValue → Except PyErr (List ((JValue × JValue) × List JValue))
  | [] => .ok []
  | model :: rest =>
    match c6ModelEntries model with
    | .error e => .error e
    | .ok entries =>
      match c6ModelsEntries rest with
      | .error e => .error e
      | .ok restEntries => .ok (entries ++ restEntries)

def c6Entries (models_data : JValue) :
    Except PyErr (List ((JValue × JValue) × List JValue)) :=
  match pyIter (_extract_models_list models_data) with
  | .error e => .error e
  | .ok models_list => c6ModelsEntries models_list

/-- "The last such element encountered wins": the value of the last entry
with the given key in the encounter-ordered entry list. -/
def lastWins (es : List ((JValue × JValue) × List JValue)) (k : JValue × JValue) :
    Option (List JValue) :=
  (es.reverse.find? fun e => e.1 = k).map (·.2)

/-- The first-occurrence subsequence described by claim C8: keep each case
whose key has not occurred earlier. -/
def firstOccurrences : List JObj → List JObj
  | [] => []
  | c :: rest => c :: firstOccurrences (rest.filter fun d => caseKey d ≠ caseKey c)
termination_by cs => cs.length
decreasing_by
  simp_wf
  exact Nat.lt_succ_of_le (List.length_filter_le _ _)

def isStr : JValue → Bool
  | .str _ => true
  | _ => false

/-!
## Claim theorems
-/

/-- C3 (counterexample): the claim says classification never raises and a
non-string `name` is treated as the empty string; but on a step whose
`name` is the number 5, `step.get("name", "").startswith(...)` raises
`AttributeError` in both classifiers. -/
theorem c3_classification_counterexample :
    _is_edge [("name", JValue.num 5)] = .error .attributeError ∧
    _is_vertex [("name", JValue.num 5)] = .error .attributeError :=
  ⟨rfl, rfl⟩

/-- C3 (amended): a step with no `name` field never raises and is
classified as neither edge nor vertex (the default empty string applies);
a string-valued `name` is classified by its `e_` / `v_` prefix; but a
`name` that is present and not a string makes both classifiers raise
`AttributeError` instead of being treated as the empty string. -/
theorem c3_classification_amended (step : JObj) :
    (aGet step "name" = none →
      _is_edge step = .ok false ∧ _is_vertex step = .ok false) ∧
    (∀ s, aGet step "name" = some (.str s) →
      _is_edge step = .ok (pyStartsWith s "e_") ∧
      _is_vertex step = .ok (pyStartsWith s "v_")) ∧
    (∀ v, aGet step "name" = some v → isStr v = false →
      _is_edge step = .error .attributeError ∧
      _is_vertex step = .error .attributeError) := by
  refine ⟨fun h => ?_, fun s h => ?_, fun v h hv => ?_⟩
  · simp [_is_edge, _is_vertex, h, pyStartsWith]
  · simp [_is_edge, _is_vertex, h]
  · cases v <;> simp_all [_is_edge, _is_vertex, isStr]

/-- C3 witness: concrete classifications through the amended theorem. -/
theorem c3_classification_amended_witness :
    _is_edge [("name", JValue.str "e_go")] = .ok true ∧
    _is_vertex [("name", JValue.str "e_go")] = .ok false := by
  have h := (c3_classification_amended [("name", JValue.str "e_go")]).2.1 "e_go" rfl
  exact ⟨h.1, h.2⟩

/-- C5 (counterexample): on the single action `"x=1;;"` the code
(`act.strip().rstrip(";")`) strips both trailing semicolons and renders
`"x=1"`, while the procedure the claim states — exactly one trailing
semicolon trimmed — renders `"x=1;"`. -/
theorem c5_changed_clause_counterexample :
    _summarise_actions [("actions", JValue.arr [JValue.str "x=1;;"])] = .ok "x=1" ∧
    summariseActionsClaimed [JValue.str "x=1;;"] = "x=1;" ∧
    ("x=1" : String) ≠ "x=1;" :=
  ⟨rfl, rfl, by decide⟩

/-- The single `filterMap` pass of `_summarise_actions` equals the
multi-pass pipeline the (amended) claim describes. -/
theorem c5_pipeline (xs : List JValue) :
    (xs.filterMap fun act =>
      match act with
      | .str s =>
        let cleaned := pyRstripSemi (pyStrip s)
        if cleaned = "" then none
        else if strContains cleaned "JsonContext" then none
        else some cleaned
      | _ => none)
    = (((xs.filterMap fun v => match v with | .str s => some s | _ => none).map
          fun s => pyRstripSemi (pyStrip s)).filter (· ≠ "")).filter
        (fun s => !strContains s "JsonContext") := by
  induction xs with
  | nil => rfl
  | cons a rest ih =>
    cases a with
    | str s =>
      by_cases h1 : pyRstripSemi (pyStrip s) = "" <;>
        by_cases h2 : strContains (pyRstripSemi (pyStrip s)) "JsonContext" = true <;>
        simp [List.filterMap_cons, List.filter_cons, h1, h2, ih]
    | null => simpa [List.filterMap_cons] using ih
    | bool b => simpa [List.filterMap_cons] using ih
    | num n => simpa [List.filterMap_cons] using ih
    | arr ys => simpa [List.filterMap_cons] using ih
    | obj fs => simpa [List.filterMap_cons] using ih

/-- C5 (amended): for every step whose `actions` field holds a list, the
changed clause is built by dropping non-string entries, trimming
whitespace and **all** trailing semicolons, dropping empties and
`JsonContext` strings, and joining with `", "`, defaulting to `"None"`. -/
theorem c5_changed_clause_amended (step : JObj) (xs : List JValue)
    (h : aGet step "actions" = some (.arr xs)) :
    _summarise_actions step = .ok (summariseActionsAmended xs) := by
  unfold _summarise_actions summariseActionsAmended
  rw [h]
  by_cases hxs : xs = []
  · subst hxs; rfl
  · have hOr : pyOr (.arr xs) (.arr []) = .arr xs := by
      cases xs with
      | nil => exact absurd rfl hxs
      | cons y ys => rfl
    simp only [Option.getD_some, hOr, pyIter]
    rw [c5_pipeline]

/-- C5 witness: a concrete actions list through the amended theorem,
with the amended clause evaluated. -/
theorem c5_changed_clause_amended_witness :
    _summarise_actions [("actions", JValue.arr [JValue.str " a=2; ", JValue.num 3])] =
      .ok (summariseActionsAmended [JValue.str " a=2; ", JValue.num 3]) ∧
    summariseActionsAmended [JValue.str " a=2; ", JValue.num 3] = "a=2" :=
  ⟨c5_changed_clause_amended _ _ rfl, rfl⟩

/-- The accumulation invariant of `split_path`: everything accumulated so
far plus the unprocessed suffix is exactly the flattened result. -/
theorem splitGo_flatten (n : String) (i : Option String) :
    ∀ (rest : List JObj) (paths : List (List JObj)) (current : List JObj),
      (splitGo n i rest paths current).flatten = paths.flatten ++ current ++ rest := by
  intro rest
  induction rest with
  | nil =>
    intro paths current
    by_cases h : current = [] <;> simp [splitGo, h]
  | cons s t ih =>
    intro paths current
    by_cases h : isStartStep n i s ∧ current ≠ []
    · simp [splitGo, h, ih]
    · simp [splitGo, h, ih]

/-- When no step of the suffix matches, `splitGo` closes exactly one
sub-path holding everything. -/
theorem splitGo_no_match (n : String) (i : Option String) :
    ∀ (rest : List JObj) (paths : List (List JObj)) (current : List JObj),
      (∀ s ∈ rest, isStartStep n i s = false) →
      splitGo n i rest paths current =
        if current ++ rest = [] then paths else paths ++ [current ++ rest] := by
  intro rest
  induction rest with
  | nil =>
    intro paths current _
    by_cases h : current = [] <;> simp [splitGo, h]
  | cons s t ih =>
    intro paths current hno
    have hs : isStartStep n i s = false := hno s (List.mem_cons_self s t)
    have hrec := ih paths (current ++ [s]) (fun x hx => hno x (List.mem_cons_of_mem s hx))
    simp only [splitGo, hs, Bool.false_eq_true, false_and, if_false]
    rw [hrec]
    simp

/-- C7: concatenating the sub-paths produced by `split_path` restores the
original step sequence; an empty input yields an empty result; a non-empty
input with no matching step yields exactly one sub-path, the whole
input. -/
theorem split_path_roundtrip (steps : List JObj) (n : String) (i : Option String) :
    (split_path steps n i).flatten = steps ∧
    (steps = [] → split_path steps n i = []) ∧
    ((∀ s ∈ steps, isStartStep n i s = false) → steps ≠ [] →
      split_path steps n i = [steps]) := by
  refine ⟨?_, ?_, ?_⟩
  · by_cases h : steps = []
    · simp [split_path, h]
    · simp [split_path, h, splitGo_flatten]
  · intro h; simp [split_path, h]
  · intro hno hne
    simp [split_path, hne]
    rw [splitGo_no_match n i steps [] [] hno]
    simp [hne]

/-- C7 witness: a concrete trace split at `v_Start`, via the round-trip
theorem and its no-match clause. -/
theorem split_path_roundtrip_witness :
    (split_path [[("name", JValue.str "v_Start")], [("name", JValue.str "e_a")]]
        "v_Start" none).flatten =
      [[("name", JValue.str "v_Start")], [("name", JValue.str "e_a")]] ∧
    split_path [[("name", JValue.str "e_a")]] "v_Start" none =
      [[[("name", JValue.str "e_a")]]] :=
  ⟨(split_path_roundtrip _ "v_Start" none).1,
   (split_path_roundtrip [[("name", JValue.str "e_a")]] "v_Start" none).2.2
     (by decide) (by decide)⟩

/-- The `seen`-set loop of `dedupe_cases` computes the first-occurrence
filter on the cases whose key is not yet seen. -/
theorem dedupeGo_eq_firstOcc :
    ∀ (cs : List JObj) (seen : List (String × List String)),
      dedupeGo cs seen = firstOccurrences (cs.filter fun c => decide (caseKey c ∉ seen))
  | [], seen => by simp [dedupeGo, firstOccurrences]
  | c :: rest, seen => by
    by_cases h : caseKey c ∈ seen
    · rw [dedupeGo, if_pos h, dedupeGo_eq_firstOcc rest seen]
      congr 1
      simp [List.filter_cons, h]
    · have hpred : (fun a : JObj => decide (caseKey a ∉ caseKey c :: seen)) =
          fun a : JObj => decide (caseKey a ≠ caseKey c) && decide (caseKey a ∉ seen) := by
        funext a
        by_cases h1 : caseKey a = caseKey c <;> by_cases h2 : caseKey a ∈ seen <;>
          simp [h1, h2]
      rw [dedupeGo, if_neg h, dedupeGo_eq_firstOcc rest (caseKey c :: seen)]
      have hfc : (c :: rest).filter (fun c' => decide (caseKey c' ∉ seen)) =
          c :: rest.filter fun c' => decide (caseKey c' ∉ seen) := by
        simp [List.filter_cons, h]
      rw [hfc, firstOccurrences]
      congr 1
      rw [List.filter_filter, hpred]

/-- `dedupeGo` returns a subsequence of its input. -/
theorem dedupeGo_sublist : ∀ (cs : List JObj) (seen : List (String × List String)),
    List.Sublist (dedupeGo cs seen) cs
  | [], _ => by simp [dedupeGo]
  | c :: rest, seen => by
    by_cases h : caseKey c ∈ seen
    · rw [dedupeGo]
      simp only [h, if_pos]
      exact (dedupeGo_sublist rest seen).cons c
    · rw [dedupeGo]
      simp only [h, if_neg]
      exact (dedupeGo_sublist rest (caseKey c :: seen)).cons₂ c

/-- No element surviving `dedupeGo` has a key already in `seen`. -/
theorem dedupeGo_not_seen : ∀ (cs : List JObj) (seen : List (String × List String))
    (c : JObj), c ∈ dedupeGo cs seen → caseKey c ∉ seen
  | [], _, c => by simp [dedupeGo]
  | a :: rest, seen, c => by
    by_cases h : caseKey a ∈ seen
    · rw [dedupeGo]
      simp only [h, if_pos]
      exact dedupeGo_not_seen rest seen c
    · rw [dedupeGo]
      simp only [h, if_neg]
      intro hc
      rcases List.mem_cons.mp hc with rfl | hc'
      · exact h
      · have := dedupeGo_not_seen rest (caseKey a :: seen) c hc'
        intro hs
        exact this (List.mem_cons_of_mem _ hs)

/-- The output of `dedupeGo` has pairwise distinct keys. -/
theorem dedupeGo_pairwise : ∀ (cs : List JObj) (seen : List (String × List String)),
    (dedupeGo cs seen).Pairwise (fun a b => caseKey a ≠ caseKey b)
  | [], _ => by simp [dedupeGo]
  | c :: rest, seen => by
    by_cases h : caseKey c ∈ seen
    · rw [dedupeGo]
      simp only [h, if_pos]
      exact dedupeGo_pairwise rest seen
    · rw [dedupeGo]
      simp only [h, if_neg]
      refine List.Pairwise.cons ?_ (dedupeGo_pairwise rest (caseKey c :: seen))
      intro b hb
      have := dedupeGo_not_seen rest (caseKey c :: seen) b hb
      intro hbc
      exact this (hbc ▸ List.mem_cons_self _ _)

/-- C8: `dedupe` returns the subsequence of first occurrences of each
distinct `(stringified name, stringified steps)` key: it equals the
first-occurrence filter, is a subsequence of the input, and no two
surviving cases share a key. -/
theorem dedupe_cases_spec (cases : List JObj) :
    dedupe_cases cases = firstOccurrences cases ∧
    List.Sublist (dedupe_cases cases) cases ∧
    (dedupe_cases cases).Pairwise (fun a b => caseKey a ≠ caseKey b) := by
  refine ⟨?_, dedupeGo_sublist cases [], dedupeGo_pairwise cases []⟩
  rw [dedupe_cases, dedupeGo_eq_firstOcc cases []]
  congr 1
  simp

/-- Classification as an edge, total: `false` where the code would raise
(under a successful run every step satisfies `_is_edge s = .ok (isEdgeT
s)`). -/
def isEdgeT (s : JObj) : Bool :=
  match _is_edge s with
  | .ok b => b
  | .error _ => false

/-- Classification as a vertex, total. -/
def isVertexT (s : JObj) : Bool :=
  match _is_vertex s with
  | .ok b => b
  | .error _ => false

/-- When the synthetic-start scan succeeds, it finds a vertex exactly when
one classifies as a vertex. -/
theorem findFirstVertex_isSome : ∀ (path : List JObj) (r : Option JObj),
    findFirstVertex path = .ok r → r.isSome = path.any isVertexT
  | [], r => by
    intro h
    simp only [findFirstVertex, Except.ok.injEq] at h
    subst h
    simp
  | s :: rest, r => by
    intro h
    rw [findFirstVertex] at h
    cases he : _is_vertex s with
    | error e => rw [he] at h; cases h
    | ok b =>
      rw [he] at h
      cases b with
      | false =>
        have := findFirstVertex_isSome rest r h
        simp [List.any_cons, isVertexT, he, this]
      | true =>
        simp only [Except.ok.injEq] at h
        subst h
        simp [List.any_cons, isVertexT, he]

/-- The edge loop's emitted lines: one line per step classified as an
edge, and the final counter advances by exactly that many. -/
theorem edgeLinesGo_spec : ∀ (rest rev : List JObj) (n : Nat)
    (ls : List String) (m : Nat),
    edgeLinesGo rev rest n = .ok (ls, m) →
    ls.length = rest.countP isEdgeT ∧ m = n + ls.length
  | [], rev, n, ls, m => by
    intro h
    simp only [edgeLinesGo, Except.ok.injEq, Prod.mk.injEq] at h
    obtain ⟨rfl, rfl⟩ := h
    simp
  | step :: rest, rev, n, ls, m => by
    intro h
    rw [edgeLinesGo] at h
    cases he : _is_edge step with
    | error e => rw [he] at h; cases h
    | ok b =>
      rw [he] at h
      cases b with
      | false =>
        have ih := edgeLinesGo_spec rest (step :: rev) n ls m h
        refine ⟨?_, ih.2⟩
        simp [List.countP_cons, isEdgeT, he, ih.1]
      | true =>
        cases hr : renderEdgeLine rev step rest (n + 1) with
        | error e => rw [hr] at h; cases h
        | ok line =>
          rw [hr] at h
          cases hrec : edgeLinesGo (step :: rev) rest (n + 1) with
          | error e => rw [hrec] at h; cases h
          | ok p =>
            obtain ⟨ls', m'⟩ := p
            rw [hrec] at h
            simp only [Except.ok.injEq, Prod.mk.injEq] at h
            obtain ⟨rfl, rfl⟩ := h
            have ih := edgeLinesGo_spec rest (step :: rev) (n + 1) ls' m' hrec
            constructor
            · simp [List.countP_cons, isEdgeT, he, ih.1]
            · simp only [List.length_cons]
              omega

/-- C2: whenever `build_step_strings_for_path` completes on a path with
`k` steps classified as edges, it emits `k + 2` lines when some step
classifies as a vertex (START + k edge lines + END) and `k + 1` lines
otherwise (no START line). -/
theorem render_line_count (path : List JObj) (ls : List String)
    (h : build_step_strings_for_path path = .ok ls) :
    ls.length = path.countP isEdgeT + (if path.any isVertexT then 2 else 1) := by
  rw [build_step_strings_for_path] at h
  cases hf : findFirstVertex path with
  | error e => rw [hf] at h; cases h
  | ok fv =>
    rw [hf] at h
    simp only [] at h
    cases hel : edgeLinesGo [] path (if fv.isSome then 1 else 0) with
    | error e => rw [hel] at h; cases h
    | ok p =>
      obtain ⟨els, m⟩ := p
      rw [hel] at h
      simp only [Except.ok.injEq] at h
      subst h
      have hspec := edgeLinesGo_spec path [] (if fv.isSome then 1 else 0) els m hel
      have hsome := findFirstVertex_isSome path fv hf
      rw [← hsome]
      cases hv : fv.isSome <;>
        simp [hv, List.length_append, hspec.1]

/-- C2 witness: a concrete three-step path with one edge and two vertices
renders to 1 + 2 = 3 lines. -/
theorem render_line_count_witness :
    (["Step [1] START TEST",
      "Step [2] Load default data -> results in Loaded with data -> changed: x=1",
      "Step [3] END TEST"] : List String).length =
      ([[("name", JValue.str "v_Start")],
        [("name", JValue.str "e_load_default_data"), ("actions", JValue.arr [JValue.str "x=1;"])],
        [("name", JValue.str "v_Loaded")]] : List JObj).countP isEdgeT +
      (if ([[("name", JValue.str "v_Start")],
            [("name", JValue.str "e_load_default_data"), ("actions", JValue.arr [JValue.str "x=1;"])],
            [("name", JValue.str "v_Loaded")]] : List JObj).any isVertexT then 2 else 1) :=
  render_line_count _ _ rfl

/-- Folding the encounter-ordered entries into a `ReqMap` by dict
insertion. -/
def foldIns (m : ReqMap) (es : List ((JValue × JValue) × List JValue)) : ReqMap :=
  es.foldl (fun acc e => mapInsert acc e.1 e.2) m

/-- Dict lookup after a dict insertion. -/
theorem mapLookup_mapInsert : ∀ (m : ReqMap) (k k' : JValue × JValue) (v : List JValue),
    mapLookup (mapInsert m k v) k' = if k' = k then some v else mapLookup m k'
  | [], k, k', v => by
    simp only [mapInsert, mapLookup]
    by_cases h : k' = k
    · subst h
      simp
    · rw [if_neg (fun hh => h hh.symm), if_neg h]
  | (a, w) :: rest, k, k', v => by
    simp only [mapInsert]
    by_cases hak : a = k
    · subst hak
      rw [if_pos rfl]
      simp only [mapLookup]
      by_cases h : a = k'
      · subst h
        simp
      · rw [if_neg h, if_neg (fun hh => h hh.symm), if_neg h]
    · rw [if_neg hak]
      simp only [mapLookup]
      by_cases h : a = k'
      · subst h
        simp [hak]
      · rw [if_neg h, mapLookup_mapInsert rest k k' v, if_neg h]

/-- Lookup through a fold of insertions: the last inserted binding of the
key wins, falling back to the initial map. -/
theorem mapLookup_foldIns : ∀ (es : List ((JValue × JValue) × List JValue))
    (m : ReqMap) (k : JValue × JValue),
    mapLookup (foldIns m es) k = (lastWins es k).or (mapLookup m k)
  | [], m, k => rfl
  | e :: es, m, k => by
    have ih := mapLookup_foldIns es (mapInsert m e.1 e.2) k
    have hfold : foldIns m (e :: es) = foldIns (mapInsert m e.1 e.2) es := rfl
    rw [hfold, ih, mapLookup_mapInsert]
    have hsingle : ([e].find? fun x => decide (x.1 = k)) =
        if e.1 = k then some e else none := by
      by_cases h : e.1 = k
      · rw [if_pos h]
        exact List.find?_cons_of_pos _ (decide_eq_true h)
      · rw [if_neg h]
        exact List.find?_cons_of_neg _ (fun hb => h (of_decide_eq_true hb))
    have hlast : lastWins (e :: es) k =
        (lastWins es k).or (if e.1 = k then some e.2 else none) := by
      rw [lastWins, lastWins, List.reverse_cons, List.find?_append, hsingle]
      cases hfind : es.reverse.find? (fun x => decide (x.1 = k)) with
      | none =>
        by_cases h : e.1 = k
        · rw [if_pos h, if_pos h]
          rfl
        · rw [if_neg h, if_neg h]
          rfl
      | some b => rfl
    rw [hlast]
    by_cases h : e.1 = k
    · rw [if_pos (show k = e.1 from h.symm), if_pos h, Option.or_assoc]
      rfl
    · rw [if_neg (show ¬ k = e.1 from fun hh => h hh.symm), if_neg h, Option.or_none]

/-- `procElement` is the fold of the single entry `c6ElementEntry`
describes (and they fail together). -/
theorem procElement_entries (name : JValue) (m : ReqMap) (e : JValue) :
    procElement name m e = (c6ElementEntry name e).map (foldIns m) := by
  cases e <;> try rfl
  case obj fs =>
    rw [procElement, c6ElementEntry]
    by_cases hid : jFalsy ((aGet fs "id").getD .null) = true
    · rw [if_pos hid, if_pos hid]
      rfl
    · rw [if_neg hid, if_neg hid]
      cases (aGet fs "requirements").getD .null <;> rfl

/-- `procElements` folds the entries `c6ElementsEntries` describes. -/
theorem procElements_entries (name : JValue) :
    ∀ (es : List JValue) (m : ReqMap),
      procElements name m es = (c6ElementsEntries name es).map (foldIns m)
  | [], m => rfl
  | e :: es, m => by
    rw [procElements, c6ElementsEntries, procElement_entries]
    cases hent : c6ElementEntry name e with
    | error err => rfl
    | ok entry =>
      simp only [Except.map]
      rw [procElements_entries name es (foldIns m entry)]
      cases hrest : c6ElementsEntries name es with
      | error err => rfl
      | ok rest =>
        simp only [Except.map, Except.ok.injEq]
        rw [foldIns, foldIns, foldIns, List.foldl_append]

/-- `procModel` folds the entries `c6ModelEntries` describes. -/
theorem procModel_entries (m : ReqMap) (model : JValue) :
    procModel m model = (c6ModelEntries model).map (foldIns m) := by
  cases model <;> try rfl
  case obj fs =>
    rw [procModel, c6ModelEntries]
    by_cases hname : jFalsy ((aGet fs "name").getD .null) = true
    · rw [if_pos hname, if_pos hname]
      rfl
    · rw [if_neg hname, if_neg hname]
      cases hedges : pyIter ((aGet fs "edges").getD (.arr [])) with
      | error e => rfl
      | ok edges =>
        simp only [procElements_entries]
        cases hee : c6ElementsEntries ((aGet fs "name").getD .null) edges with
        | error e => rfl
        | ok edgeEntries =>
          simp only [Except.map]
          cases hverts : pyIter ((aGet fs "vertices").getD (.arr [])) with
          | error e => rfl
          | ok vertices =>
            simp only [procElements_entries]
            cases hve : c6ElementsEntries ((aGet fs "name").getD .null) vertices with
            | error e => rfl
            | ok vertexEntries =>
              simp only [Except.map, Except.ok.injEq]
              rw [foldIns, foldIns, foldIns, List.foldl_append]

/-- `procModels` folds the entries `c6ModelsEntries` describes. -/
theorem procModels_entries : ∀ (models : List JValue) (m : ReqMap),
    procModels m models = (c6ModelsEntries models).map (foldIns m)
  | [], m => rfl
  | model :: rest, m => by
    rw [procModels, c6ModelsEntries, procModel_entries]
    cases hme : c6ModelEntries model with
    | error e => rfl
    | ok entries =>
      simp only [Except.map]
      rw [procModels_entries rest (foldIns m entries)]
      cases hrest : c6ModelsEntries rest with
      | error e => rfl
      | ok restEntries =>
        simp only [Except.map, Except.ok.injEq]
        rw [foldIns, foldIns, foldIns, List.foldl_append]

/-- `build_requirements_map` is exactly the fold of the encounter-ordered
entry list. -/
theorem build_requirements_map_entries (models_data : JValue) :
    build_requirements_map models_data = (c6Entries models_data).map (foldIns []) := by
  rw [build_requirements_map, c6Entries]
  cases pyIter (_extract_models_list models_data) with
  | error e => rfl
  | ok models_list => simpa using procModels_entries models_list []

/-- C6: whenever index construction completes, the index maps every key to
the requirements of the last element carrying that key in encounter order
(models in order, edges before vertices within each model), earlier
entries being silently overwritten. -/
theorem requirements_index_last_wins (models_data : JValue) (m : ReqMap)
    (h : build_requirements_map models_data = .ok m) :
    ∃ es, c6Entries models_data = .ok es ∧ ∀ k, mapLookup m k = lastWins es k := by
  rw [build_requirements_map_entries] at h
  cases hes : c6Entries models_data with
  | error e => rw [hes] at h; cases h
  | ok es =>
    rw [hes] at h
    simp only [Except.map, Except.ok.injEq] at h
    subst h
    refine ⟨es, rfl, fun k => ?_⟩
    rw [mapLookup_foldIns]
    simp [mapLookup, Option.or_none]

/-- C6 witness: two elements with the same `(modelName, id)` key and
list-valued requirements — the vertex encountered after the edge wins. -/
theorem requirements_index_last_wins_witness :
    ∃ es, c6Entries (.obj [("models", .arr [.obj
        [("name", .str "M"),
         ("edges", .arr [.obj [("id", .str "x"), ("requirements", .arr [.str "R-1"])]]),
         ("vertices", .arr [.obj [("id", .str "x"), ("requirements", .arr [.str "R-2"])]])]])])
      = .ok es ∧
    ∀ k, mapLookup [((JValue.str "M", JValue.str "x"), [JValue.str "R-2"])] k = lastWins es k :=
  requirements_index_last_wins _ _ rfl

/-!
## Step Annotator shapes and postconditions
-/

/-- Values Python can iterate (`for step in path`). -/
def iterOk : JValue → Bool
  | .arr _ => true
  | .str _ => true
  | .obj _ => true
  | _ => false

/-- The total value of annotating one entry of a multiple-paths container
(defined wherever `annotPath` does not raise). -/
def annotPathTotal (m : ReqMap) : JValue → JValue
  | .arr ys => .arr (ys.map (annotIfDict m))
  | v => v

/-- The items of one path entry (a non-list entry contributes none). -/
def pathElems : JValue → List JValue
  | .arr ys => ys
  | _ => []

/-- The step positions the annotator traverses in a container body. -/
def containerSteps (xs : List JValue) : List JValue :=
  if firstIsArr xs then xs.flatMap pathElems else xs

/-- The step positions the annotator traverses in a full container. -/
def encounteredSteps : JValue → List JValue
  | .arr xs => containerSteps xs
  | .obj fs =>
    match aGet fs "steps" with
    | some (.arr xs) => containerSteps xs
    | _ => []
  | _ => []

/-- An object-shaped step carries a list-valued `requirements` field
(anything else trivially satisfies the postcondition). -/
def hasListReq : JValue → Prop
  | .obj fs => ∃ rs, aGet fs "requirements" = some (.arr rs)
  | _ => True

/-- The four container shapes claim C1 quantifies over: a bare single path
(empty, or first element not a list), a bare non-empty sequence of
sequences, or an object whose `steps` field holds either. -/
def recognizedShape : JValue → Prop
  | .arr xs =>
    firstIsArr xs = false ∨ ((∀ x ∈ xs, isArr x = true) ∧ xs ≠ [])
  | .obj fs =>
    ∃ xs, aGet fs "steps" = some (.arr xs) ∧
      (firstIsArr xs = false ∨ ((∀ x ∈ xs, isArr x = true) ∧ xs ≠ []))
  | _ => False

theorem aGet_aSet_self : ∀ (fs : JObj) (k : String) (v : JValue),
    aGet (aSet fs k v) k = some v
  | [], k, v => by simp [aSet, aGet]
  | (a, w) :: rest, k, v => by
    by_cases h : a = k
    · simp [aSet, aGet, h]
    · simp [aSet, aGet, h, aGet_aSet_self rest k v]

theorem aGet_aSet_ne : ∀ (fs : JObj) (k k' : String) (v : JValue), k ≠ k' →
    aGet (aSet fs k v) k' = aGet fs k'
  | [], k, k', v, h => by simp [aSet, aGet, h]
  | (a, w) :: rest, k, k', v, h => by
    by_cases hak : a = k
    · subst hak
      simp [aSet, aGet, h]
    · simp only [aSet, if_neg hak, aGet]
      by_cases h' : a = k'
      · simp [h']
      · simp [h', aGet_aSet_ne rest k k' v h]

theorem aSet_aSet_self : ∀ (fs : JObj) (k : String) (v v' : JValue),
    aSet (aSet fs k v) k v' = aSet fs k v'
  | [], k, v, v' => by simp [aSet]
  | (a, w) :: rest, k, v, v' => by
    by_cases h : a = k
    · simp [aSet, h]
    · simp [aSet, h, aSet_aSet_self rest k v v']

/-- After `_annotate_step`, `requirements` is present and list-valued. -/
theorem annotate_step_req (fs : JObj) (m : ReqMap) :
    ∃ rs, aGet (_annotate_step fs m) "requirements" = some (.arr rs) := by
  rw [_annotate_step]
  by_cases h : ((aGet fs "id").getD .null = .null ∨ (aGet fs "modelName").getD .null = .null)
  · rw [if_pos h]
    exact ⟨[], aGet_aSet_self fs _ _⟩
  · rw [if_neg h]
    exact ⟨_, aGet_aSet_self fs _ _⟩

/-- `_annotate_step` is idempotent: it reads only `id` and `modelName`,
which setting `requirements` does not disturb. -/
theorem annotate_step_idem (fs : JObj) (m : ReqMap) :
    _annotate_step (_annotate_step fs m) m = _annotate_step fs m := by
  have hset : ∀ v : JValue,
      _annotate_step (aSet fs "requirements" v) m = _annotate_step fs m := by
    intro v
    rw [_annotate_step, _annotate_step,
        aGet_aSet_ne fs "requirements" "id" v (by decide),
        aGet_aSet_ne fs "requirements" "modelName" v (by decide)]
    by_cases h : ((aGet fs "id").getD .null = .null ∨ (aGet fs "modelName").getD .null = .null)
    · rw [if_pos h, if_pos h, aSet_aSet_self]
    · rw [if_neg h, if_neg h, aSet_aSet_self]
  have hinner : ∃ X, _annotate_step fs m = aSet fs "requirements" X := by
    rw [_annotate_step]
    by_cases h : ((aGet fs "id").getD .null = .null ∨ (aGet fs "modelName").getD .null = .null)
    · exact ⟨_, by rw [if_pos h]⟩
    · exact ⟨_, by rw [if_neg h]⟩
  rcases hinner with ⟨X, hX⟩
  rw [hX, hset X]
  exact hX

theorem annotIfDict_isArr (m : ReqMap) (v : JValue) :
    isArr (annotIfDict m v) = isArr v := by
  cases v <;> rfl

theorem annotIfDict_nonObj (m : ReqMap) (v : JValue) (h : isObj v = false) :
    annotIfDict m v = v := by
  cases v <;> simp_all [annotIfDict, isObj]

theorem annotIfDict_idem (m : ReqMap) (v : JValue) :
    annotIfDict m (annotIfDict m v) = annotIfDict m v := by
  cases v <;> try rfl
  case obj fs =>
    show JValue.obj (_annotate_step (_annotate_step fs m) m) = JValue.obj (_annotate_step fs m)
    rw [annotate_step_idem]

theorem annotIfDict_hasListReq (m : ReqMap) (v : JValue) :
    hasListReq (annotIfDict m v) := by
  cases v <;> try trivial
  case obj fs => exact annotate_step_req fs m

theorem firstIsArr_map_annotIfDict (m : ReqMap) (xs : List JValue) :
    firstIsArr (xs.map (annotIfDict m)) = firstIsArr xs := by
  cases xs with
  | nil => rfl
  | cons x t =>
    show firstIsArr (annotIfDict m x :: t.map (annotIfDict m)) = firstIsArr (x :: t)
    cases x <;> rfl

theorem annotPath_total (m : ReqMap) (x : JValue) (h : iterOk x = true) :
    annotPath m x = .ok (annotPathTotal m x) := by
  cases x <;> simp_all [iterOk, annotPath, annotPathTotal]

theorem annotPathTotal_nonArr (m : ReqMap) (v : JValue) (h : isArr v = false) :
    annotPathTotal m v = v := by
  cases v <;> simp_all [annotPathTotal, isArr]

theorem annotPathTotal_idem (m : ReqMap) (v : JValue) :
    annotPathTotal m (annotPathTotal m v) = annotPathTotal m v := by
  cases v <;> try rfl
  case arr ys =>
    show JValue.arr ((ys.map (annotIfDict m)).map (annotIfDict m)) =
      JValue.arr (ys.map (annotIfDict m))
    congr 1
    rw [List.map_map]
    exact List.map_congr_left (fun a _ => annotIfDict_idem m a)

theorem annotPaths_total (m : ReqMap) : ∀ (xs : List JValue),
    (∀ x ∈ xs, iterOk x = true) →
    annotPaths m xs = .ok (xs.map (annotPathTotal m))
  | [], _ => rfl
  | x :: t, h => by
    rw [annotPaths, annotPath_total m x (h x (List.mem_cons_self x t)),
        annotPaths_total m t (fun y hy => h y (List.mem_cons_of_mem x hy))]
    rfl

theorem annotPaths_err (m : ReqMap) : ∀ (xs : List JValue) (x : JValue),
    x ∈ xs → iterOk x = false → annotPaths m xs = .error .typeError
  | x₀ :: t, x, hmem, hbad => by
    rw [annotPaths]
    rcases List.mem_cons.mp hmem with rfl | hmem'
    · cases x <;> simp_all [iterOk, annotPath]
    · cases hp : annotPath m x₀ with
      | error e => cases x₀ <;> simp_all [annotPath]
      | ok p' => rw [annotPaths_err m t x hmem' hbad]

theorem annotContainer_single (m : ReqMap) (xs : List JValue)
    (h : firstIsArr xs = false) :
    annotContainer m xs = .ok (xs.map (annotIfDict m)) := by
  simp [annotContainer, h]

theorem annotContainer_multi (m : ReqMap) (xs : List JValue)
    (h : firstIsArr xs = true) (hall : ∀ x ∈ xs, iterOk x = true) :
    annotContainer m xs = .ok (xs.map (annotPathTotal m)) := by
  simp [annotContainer, h, annotPaths_total m xs hall]

/-- Postcondition of annotating a container body in a recognized shape:
the traversal succeeds and every object-shaped step it encountered holds a
list-valued `requirements`. -/
theorem annotContainer_post (m : ReqMap) (xs : List JValue)
    (h : firstIsArr xs = false ∨ ((∀ x ∈ xs, isArr x = true) ∧ xs ≠ [])) :
    ∃ ys, annotContainer m xs = .ok ys ∧ ∀ s ∈ containerSteps ys, hasListReq s := by
  rcases h with h | ⟨hall, hne⟩
  · refine ⟨xs.map (annotIfDict m), annotContainer_single m xs h, ?_⟩
    have hfi : firstIsArr (xs.map (annotIfDict m)) = false := by
      rw [firstIsArr_map_annotIfDict]
      exact h
    rw [containerSteps, hfi]
    simp only [Bool.false_eq_true, if_false]
    intro s hs
    rcases List.mem_map.mp hs with ⟨x, hx, rfl⟩
    exact annotIfDict_hasListReq m x
  · have hiter : ∀ x ∈ xs, iterOk x = true := by
      intro x hx
      have := hall x hx
      cases x <;> simp_all [isArr, iterOk]
    have hfi' : firstIsArr (xs.map (annotPathTotal m)) = true := by
      cases xs with
      | nil => exact absurd rfl hne
      | cons y t =>
        have := hall y (List.mem_cons_self y t)
        cases y <;> simp_all [isArr, annotPathTotal, firstIsArr]
    refine ⟨xs.map (annotPathTotal m), annotContainer_multi m xs ?_ hiter, ?_⟩
    · cases xs with
      | nil => exact absurd rfl hne
      | cons y t =>
        have := hall y (List.mem_cons_self y t)
        cases y <;> simp_all [isArr, firstIsArr]
    · rw [containerSteps, hfi']
      simp only [if_true]
      intro s hs
      rcases List.mem_flatMap.mp hs with ⟨y, hy, hsy⟩
      rcases List.mem_map.mp hy with ⟨x, hx, rfl⟩
      have hxarr := hall x hx
      cases x with
      | arr zs =>
        simp only [annotPathTotal, pathElems] at hsy
        rcases List.mem_map.mp hsy with ⟨z, hz, rfl⟩
        exact annotIfDict_hasListReq m z
      | null => simp [isArr] at hxarr
      | bool b => simp [isArr] at hxarr
      | num n => simp [isArr] at hxarr
      | str s2 => simp [isArr] at hxarr
      | obj gs => simp [isArr] at hxarr

/-- C1: on every container in one of the four recognized shapes, the Step
Annotator succeeds, and afterwards every object-shaped step it encountered
(at any nesting level the traversal reaches) carries a `requirements`
field that is present and is a list, whether or not the lookup matched. -/
theorem annotate_total_requirements (v : JValue) (m : ReqMap) (h : recognizedShape v) :
    ∃ w, annotate_steps v m = .ok w ∧ ∀ s ∈ encounteredSteps w, hasListReq s := by
  cases v with
  | arr xs =>
    obtain ⟨ys, hok, hpost⟩ := annotContainer_post m xs h
    refine ⟨.arr ys, ?_, ?_⟩
    · simp only [annotate_steps, hok]
    · intro s hs
      exact hpost s hs
  | obj fs =>
    obtain ⟨xs, hsteps, hsh⟩ := h
    obtain ⟨ys, hok, hpost⟩ := annotContainer_post m xs hsh
    refine ⟨.obj (aSet fs "steps" (.arr ys)), ?_, ?_⟩
    · simp only [annotate_steps, hsteps, hok]
    · intro s hs
      rw [encounteredSteps, aGet_aSet_self fs "steps" (.arr ys)] at hs
      exact hpost s hs
  | null => exact h.elim
  | bool b => exact h.elim
  | num n => exact h.elim
  | str s => exact h.elim

/-- C1 witness: a single-path container holding one step with no matching
index entry — annotation succeeds and the step gets a list. -/
theorem annotate_total_requirements_witness :
    ∃ w, annotate_steps (.arr [.obj [("id", JValue.str "e1"), ("modelName", JValue.str "M")]])
        [] = .ok w ∧ ∀ s ∈ encounteredSteps w, hasListReq s :=
  annotate_total_requirements _ [] (Or.inl rfl)

/-- Re-annotating an already-annotated container body changes nothing. -/
theorem annotContainer_idem (m : ReqMap) (xs ys : List JValue)
    (h : firstIsArr xs = false ∨ ((∀ x ∈ xs, isArr x = true) ∧ xs ≠ []))
    (hok : annotContainer m xs = .ok ys) :
    annotContainer m ys = .ok ys := by
  rcases h with h | ⟨hall, hne⟩
  · rw [annotContainer_single m xs h] at hok
    simp only [Except.ok.injEq] at hok
    subst hok
    have hfi : firstIsArr (xs.map (annotIfDict m)) = false := by
      rw [firstIsArr_map_annotIfDict]
      exact h
    rw [annotContainer_single m _ hfi, List.map_map]
    simp only [Except.ok.injEq]
    exact List.map_congr_left (fun a _ => annotIfDict_idem m a)
  · have hiter : ∀ x ∈ xs, iterOk x = true := by
      intro x hx
      have := hall x hx
      cases x <;> simp_all [isArr, iterOk]
    have hfi : firstIsArr xs = true := by
      cases xs with
      | nil => exact absurd rfl hne
      | cons y t =>
        have := hall y (List.mem_cons_self y t)
        cases y <;> simp_all [isArr, firstIsArr]
    rw [annotContainer_multi m xs hfi hiter] at hok
    simp only [Except.ok.injEq] at hok
    subst hok
    have hall' : ∀ y ∈ xs.map (annotPathTotal m), isArr y = true := by
      intro y hy
      rcases List.mem_map.mp hy with ⟨x, hx, rfl⟩
      have := hall x hx
      cases x <;> simp_all [isArr, annotPathTotal]
    have hne' : xs.map (annotPathTotal m) ≠ [] := by
      cases xs with
      | nil => exact absurd rfl hne
      | cons y t => simp
    have hiter' : ∀ y ∈ xs.map (annotPathTotal m), iterOk y = true := by
      intro y hy
      have := hall' y hy
      cases y <;> simp_all [isArr, iterOk]
    have hfi' : firstIsArr (xs.map (annotPathTotal m)) = true := by
      cases hxs : xs.map (annotPathTotal m) with
      | nil => exact absurd hxs hne'
      | cons y t =>
        have := hall' y (hxs ▸ List.mem_cons_self y t)
        cases y <;> simp_all [isArr, firstIsArr]
    rw [annotContainer_multi m _ hfi' hiter', List.map_map]
    simp only [Except.ok.injEq]
    exact List.map_congr_left (fun a _ => annotPathTotal_idem m a)

/-- C9: annotation is idempotent — running the Step Annotator again on the
annotated container with the same index returns it unchanged (so every
step's `requirements` is identical to its value after the first run). -/
theorem annotate_steps_idempotent (v w : JValue) (m : ReqMap)
    (h : recognizedShape v) (h1 : annotate_steps v m = .ok w) :
    annotate_steps w m = .ok w := by
  cases v with
  | arr xs =>
    cases hc : annotContainer m xs with
    | error e =>
      rw [annotate_steps, hc] at h1
      cases h1
    | ok ys =>
      rw [annotate_steps, hc] at h1
      simp only [Except.ok.injEq] at h1
      subst h1
      rw [annotate_steps, annotContainer_idem m xs ys h hc]
  | obj fs =>
    obtain ⟨xs, hsteps, hsh⟩ := h
    cases hc : annotContainer m xs with
    | error e =>
      simp only [annotate_steps, hsteps, hc] at h1
      cases h1
    | ok ys =>
      simp only [annotate_steps, hsteps, hc, Except.ok.injEq] at h1
      subst h1
      have hget : aGet (aSet fs "steps" (.arr ys)) "steps" = some (.arr ys) :=
        aGet_aSet_self fs "steps" (.arr ys)
      simp only [annotate_steps, hget, annotContainer_idem m xs ys hsh hc,
        aSet_aSet_self]
  | null => exact h.elim
  | bool b => exact h.elim
  | num n => exact h.elim
  | str s => exact h.elim

/-- C9 witness: a concrete annotated container re-annotated, unchanged. -/
theorem annotate_steps_idempotent_witness :
    annotate_steps (.arr [.obj [("id", JValue.str "e1"), ("modelName", JValue.str "M"),
        ("requirements", JValue.arr [])]]) [] =
      .ok (.arr [.obj [("id", JValue.str "e1"), ("modelName", JValue.str "M"),
        ("requirements", JValue.arr [])]]) :=
  annotate_steps_idempotent
    (.arr [.obj [("id", JValue.str "e1"), ("modelName", JValue.str "M")]])
    (.arr [.obj [("id", JValue.str "e1"), ("modelName", JValue.str "M"),
        ("requirements", JValue.arr [])]])
    [] (Or.inl rfl) rfl

/-- C4 (counterexample): in a container disambiguated as multiple paths
(first element a list), a non-iterable second entry — the number 5 — makes
`for step in path` raise `TypeError` instead of being silently skipped. -/
theorem annotate_skip_counterexample :
    annotate_steps (.arr [.arr [], .num 5]) [] = .error .typeError :=
  rfl

/-- C4 (amended): non-object elements at step level are silently skipped
and left unchanged, in every recognized shape; in a multiple-paths
container an iterable non-list entry (string or object) is traversed
without annotating anything and left unchanged; but a non-iterable entry
(number, boolean or null) at the path level of a multiple-paths container
raises `TypeError`. -/
theorem annotate_skip_amended (m : ReqMap) :
    (∀ v, isObj v = false → annotIfDict m v = v) ∧
    (∀ v, isArr v = false → annotPathTotal m v = v) ∧
    (∀ xs, firstIsArr xs = false →
      annotate_steps (.arr xs) m = .ok (.arr (xs.map (annotIfDict m)))) ∧
    (∀ xs, firstIsArr xs = true → (∀ x ∈ xs, iterOk x = true) →
      annotate_steps (.arr xs) m = .ok (.arr (xs.map (annotPathTotal m)))) ∧
    (∀ xs x, firstIsArr xs = true → x ∈ xs → iterOk x = false →
      annotate_steps (.arr xs) m = .error .typeError) ∧
    (∀ fs xs, aGet fs "steps" = some (.arr xs) → firstIsArr xs = false →
      annotate_steps (.obj fs) m =
        .ok (.obj (aSet fs "steps" (.arr (xs.map (annotIfDict m)))))) := by
  refine ⟨annotIfDict_nonObj m, annotPathTotal_nonArr m, ?_, ?_, ?_, ?_⟩
  · intro xs h
    simp only [annotate_steps, annotContainer_single m xs h]
  · intro xs h hall
    simp only [annotate_steps, annotContainer_multi m xs h hall]
  · intro xs x hfi hmem hbad
    have herr : annotContainer m xs = .error .typeError := by
      rw [annotContainer]
      simp only [hfi, if_true]
      exact annotPaths_err m xs x hmem hbad
    simp only [annotate_steps, herr]
  · intro fs xs hsteps h
    simp only [annotate_steps, hsteps, annotContainer_single m xs h]

/-- C4 witness: a number at step level is skipped; a string entry at path
level of a multiple-paths container is left unchanged. -/
theorem annotate_skip_amended_witness :
    annotate_steps (.arr [JValue.num 7]) [] = .ok (.arr [JValue.num 7]) ∧
    annotate_steps (.arr [.arr [JValue.num 7], JValue.str "s"]) [] =
      .ok (.arr [.arr [JValue.num 7], JValue.str "s"]) := by
  have h := annotate_skip_amended ([] : ReqMap)
  exact ⟨h.2.2.1 [JValue.num 7] rfl,
         h.2.2.2.1 [.arr [JValue.num 7], JValue.str "s"] rfl (by decide)⟩

/-!
## List identity model for the aliasing claim (C10)

`_annotate_step` stores `list(requirements)` — a copy — and
`build_requirements_map` stores `list(reqs)` into the index.  To state
aliasing, Python list objects are given explicit identities: a heap of
list cells addressed by allocation order.
-/

/-- A heap of Python list objects; an address is an index into it. -/
abbrev Heap := List (List JValue)

/-- Allocate a fresh list object: its address and the grown heap. -/
def hAlloc (h : Heap) (v : List JValue) : Nat × Heap := (h.length, h ++ [v])

/-- Dereference an address (out-of-range never occurs in the theorems). -/
def hGet (h : Heap) (a : Nat) : List JValue := h.getD a []

/-- Mutate the list object at an address in place. -/
def hSet (h : Heap) (a : Nat) (v : List JValue) : Heap := h.set a v

/-- The requirements index with its list values as heap addresses. -/
abbrev ReqMapA := List ((JValue × JValue) × Nat)

def aLookupA : ReqMapA → (JValue × JValue) → Option Nat
  | [], _ => none
  | (k', a) :: rest, k => if k' = k then some a else aLookupA rest k

/-- `_annotate_step` with the allocation in
`step["requirements"] = list(requirements)` (respectively `= []`) made
explicit: the address of the step's freshly allocated list, and the grown
heap.  A hit copies the contents of the index's cell into the new cell. -/
def annotateStepAlloc (step_id model_name : JValue) (idx : ReqMapA) (h : Heap) :
    Nat × Heap :=
  if step_id = .null ∨ model_name = .null then hAlloc h []
  else
    match aLookupA idx (model_name, step_id) with
    | some a => hAlloc h (hGet h a)
    | none => hAlloc h []

/-- Annotation always allocates exactly one fresh cell at the end of the
heap. -/
theorem annotateStepAlloc_fresh (i mn : JValue) (idx : ReqMapA) (h : Heap) :
    (annotateStepAlloc i mn idx h).1 = h.length ∧
    ∃ c, (annotateStepAlloc i mn idx h).2 = h ++ [c] := by
  rw [annotateStepAlloc]
  by_cases hc : i = .null ∨ mn = .null
  · rw [if_pos hc]
    exact ⟨rfl, _, rfl⟩
  · rw [if_neg hc]
    cases aLookupA idx (mn, i) <;> exact ⟨rfl, _, rfl⟩

/-- Reading below the old length is unaffected by an append. -/
theorem hGet_append (h : Heap) (c : List JValue) (a : Nat) (ha : a < h.length) :
    hGet (h ++ [c]) a = hGet h a := by
  rw [hGet, hGet, List.getD_eq_getElem?_getD, List.getD_eq_getElem?_getD,
      List.getElem?_append_left ha]

/-- C10: annotating two steps against the same index allocates two
distinct fresh list objects (even when both resolve to the same key); no
index address is aliased by either, a match copies the index cell's
contents, and mutating a step's list afterwards leaves every index cell
exactly as it was. -/
theorem annotate_no_aliasing (id1 mn1 id2 mn2 : JValue) (idx : ReqMapA) (h : Heap)
    (hvalid : ∀ p ∈ idx, p.2 < h.length) :
    (annotateStepAlloc id2 mn2 idx (annotateStepAlloc id1 mn1 idx h).2).1 ≠
      (annotateStepAlloc id1 mn1 idx h).1 ∧
    (∀ p ∈ idx, p.2 ≠ (annotateStepAlloc id1 mn1 idx h).1) ∧
    (∀ a, aLookupA idx (mn1, id1) = some a → ¬(id1 = .null ∨ mn1 = .null) →
      hGet (annotateStepAlloc id1 mn1 idx h).2 (annotateStepAlloc id1 mn1 idx h).1 =
        hGet h a) ∧
    (∀ p ∈ idx, ∀ v,
      hGet (hSet (annotateStepAlloc id1 mn1 idx h).2
          (annotateStepAlloc id1 mn1 idx h).1 v) p.2 = hGet h p.2) := by
  obtain ⟨ha1, c1, hh1⟩ := annotateStepAlloc_fresh id1 mn1 idx h
  obtain ⟨ha2, c2, hh2⟩ :=
    annotateStepAlloc_fresh id2 mn2 idx (annotateStepAlloc id1 mn1 idx h).2
  refine ⟨?_, ?_, ?_, ?_⟩
  · rw [ha1, ha2, hh1]
    simp
  · intro p hp
    rw [ha1]
    exact Nat.ne_of_lt (hvalid p hp)
  · intro a hlook hc
    have heq : annotateStepAlloc id1 mn1 idx h = hAlloc h (hGet h a) := by
      rw [annotateStepAlloc, if_neg hc, hlook]
    rw [heq]
    show hGet (h ++ [hGet h a]) h.length = hGet h a
    rw [hGet, List.getD_eq_getElem?_getD, List.getElem?_concat_length]
    rfl
  · intro p hp v
    rw [ha1, hh1, hSet]
    have hlt : p.2 < (h ++ [c1]).length := by
      simp only [List.length_append, List.length_cons, List.length_nil]
      exact Nat.lt_succ_of_lt (hvalid p hp)
    rw [hGet, List.getD_eq_getElem?_getD,
        List.getElem?_set_ne (Nat.ne_of_lt (hvalid p hp)).symm,
        List.getElem?_append_left (hvalid p hp), hGet, List.getD_eq_getElem?_getD]

/-- C10 witness: two steps resolving to the same `("M","e1")` key receive
distinct fresh list objects. -/
theorem annotate_no_aliasing_witness :
    (annotateStepAlloc (JValue.str "e1") (JValue.str "M")
        [((JValue.str "M", JValue.str "e1"), 0)]
        (annotateStepAlloc (JValue.str "e1") (JValue.str "M")
            [((JValue.str "M", JValue.str "e1"), 0)] [[JValue.str "R-1"]]).2).1 ≠
      (annotateStepAlloc (JValue.str "e1") (JValue.str "M")
          [((JValue.str "M", JValue.str "e1"), 0)] [[JValue.str "R-1"]]).1 :=
  (annotate_no_aliasing (JValue.str "e1") (JValue.str "M") (JValue.str "e1") (JValue.str "M")
    [((JValue.str "M", JValue.str "e1"), 0)] [[JValue.str "R-1"]] (by decide)).1
